import Mathlib

/-!
Verification of the diff-handler utility (`diff_handler.py`): a shallow
embedding of its data model and operations, followed by theorems settling
the specification's claims.

Strings are embedded as `List Char`. Python's `str.splitlines`,
`str.strip` and `'\n'.join` are modelled explicitly below; every function
mirrors the corresponding Python function of the source, statement by
statement.
-/

namespace DiffHandler

/-- Abbreviation turning a Lean string literal into the character-list
representation used throughout the development. -/
def toL (s : String) : List Char := s.toList

/-- The backtick character (code point 96), written via `Char.ofNat`. -/
def backtickChar : Char := Char.ofNat 96

/-- Line-boundary characters of Python's `str.splitlines`:
LF, VT, FF, CR, FS, GS, RS, NEL, LINE SEPARATOR, PARAGRAPH SEPARATOR
(CR LF is treated as a single boundary in `splitlinesList`). -/
def isLineBreak (c : Char) : Bool :=
  c.toNat = 10 || c.toNat = 11 || c.toNat = 12 || c.toNat = 13 ||
  c.toNat = 28 || c.toNat = 29 || c.toNat = 30 || c.toNat = 133 ||
  c.toNat = 8232 || c.toNat = 8233

/-- Whitespace characters stripped by Python's `str.strip()` (the
characters for which `str.isspace()` holds). -/
def isPySpace (c : Char) : Bool :=
  c.toNat = 32 || (9 ≤ c.toNat && c.toNat ≤ 13) ||
  (28 ≤ c.toNat && c.toNat ≤ 31) || c.toNat = 133 || c.toNat = 160 ||
  c.toNat = 5760 || (8192 ≤ c.toNat && c.toNat ≤ 8202) ||
  c.toNat = 8232 || c.toNat = 8233 || c.toNat = 8239 ||
  c.toNat = 8287 || c.toNat = 12288

/-- Python `str.strip()`: drop leading and trailing whitespace. -/
def pyStrip (s : List Char) : List Char :=
  ((s.dropWhile isPySpace).reverse.dropWhile isPySpace).reverse

/-- Python `str.splitlines()`: split at line boundaries, treating CR LF
as one boundary and producing no trailing empty line for a trailing
boundary (`"".splitlines() = []`, `"a\n".splitlines() = ["a"]`,
`"\n".splitlines() = [""]`). -/
def splitlinesList : List Char → List (List Char)
  | [] => []
  | '\r' :: '\n' :: cs => [] :: splitlinesList cs
  | c :: cs =>
    if isLineBreak c then [] :: splitlinesList cs
    else
      match splitlinesList cs with
      | [] => [[c]]
      | l :: ls => (c :: l) :: ls

/-- Python `'\n'.join(lines)`. -/
def joinLines (ls : List (List Char)) : List Char :=
  List.intercalate ['\n'] ls

/-! ### The Positional Merger: `apply_diff`

Source (`diff_handler.py`, lines 102-124): split both arguments into
lines; scan candidate start indices `i` in order; at each `i` test
whether any line of `new_lines` occurs in the slice
`original_lines[i:i+len(new_lines)]`; on the first hit replace that
slice by `new_lines` and stop; finally join the result with newlines. -/

/-- The inner-loop test of `apply_diff`: does some line of `nl` occur in
the window `ol[i : i + nl.length]`? (`for j in range(len(new_lines)):
if new_lines[j] in original_lines[i:i+len(new_lines)]`). -/
def windowHit (ol nl : List (List Char)) (i : Nat) : Bool :=
  nl.any (fun l => ((ol.drop i).take nl.length).contains l)

/-- Propositional form of `windowHit`, used to state claims. -/
def WindowHitP (ol nl : List (List Char)) (i : Nat) : Prop :=
  ∃ l ∈ nl, l ∈ (ol.drop i).take nl.length

instance (ol nl : List (List Char)) (i : Nat) : Decidable (WindowHitP ol nl i) :=
  inferInstanceAs (Decidable (∃ l ∈ nl, l ∈ (ol.drop i).take nl.length))

/-- The outer loop of `apply_diff`: try indices `i, i+1, ...` while fuel
remains (`apply_diff` supplies fuel `ol.length`, mirroring
`for i in range(len(original_lines))`), returning the first hit. -/
def findAnchorFrom (ol nl : List (List Char)) : Nat → Nat → Option Nat
  | _, 0 => none
  | i, fuel + 1 =>
    if windowHit ol nl i then some i else findAnchorFrom ol nl (i + 1) fuel

/-- The slice assignment `result_lines[i:i+len(new_lines)] = new_lines`
performed on a copy of the original lines. -/
def spliceAt (ol nl : List (List Char)) (i : Nat) : List (List Char) :=
  ol.take i ++ nl ++ ol.drop (i + nl.length)

/-- `apply_diff(original_code, new_content)` from the source. -/
def apply_diff (original_code new_content : List Char) : List Char :=
  match
    findAnchorFrom (splitlinesList original_code)
      (splitlinesList new_content) 0 (splitlinesList original_code).length
  with
  | some i =>
      joinLines
        (spliceAt (splitlinesList original_code) (splitlinesList new_content) i)
  | none => joinLines (splitlinesList original_code)

/-! ### The Marker Segmenter: `parse_code_block`

Source (lines 50-88): walk the body's lines; a line whose
whitespace-stripped form is in `context_markers` closes the open literal
run (emitting a `('replace', text, 3)` change); any other line is
appended to the current run; a final open run is emitted at the end. -/

/-- One entry of the list returned by `parse_code_block`: the tuple
`(action, content, context_lines)` of the source. -/
structure Change where
  action : List Char
  content : List Char
  context : Nat
deriving DecidableEq, Repr

/-- The fixed marker vocabulary `context_markers` of the source. -/
def context_markers : List (List Char) :=
  [toL "// existing code...", toL "// ...", toL "# existing code...",
   toL "# ...", toL "...", toL "# rest of the file", toL "// rest of the file"]

/-- The loop of `parse_code_block`: the second argument is
`current_section` (lines accumulated in order), the third is the
`in_change_section` flag; the final `if current_section:` emission is the
base case. -/
def parseAux : List (List Char) → List (List Char) → Bool → List Change
  | [], current_section, _ =>
    if current_section.isEmpty then []
    else [⟨toL "replace", joinLines current_section, 3⟩]
  | line :: rest, current_section, in_change_section =>
    if context_markers.contains (pyStrip line) then
      if in_change_section && !current_section.isEmpty then
        ⟨toL "replace", joinLines current_section, 3⟩ :: parseAux rest [] false
      else parseAux rest current_section false
    else parseAux rest (current_section ++ [line]) true

/-- `parse_code_block(block_content)` from the source. -/
def parse_code_block (block_content : List Char) : List Change :=
  parseAux (splitlinesList block_content) [] false

/-! ### The Block Extractor: `extract_code_blocks`

Source (lines 33-48): `re.finditer` over the pattern
three backticks, `(\w+)`, optionally a colon and `([^\n]+)`, a newline,
a lazy `(.*?)` body (DOTALL), and a closing three-backtick fence.  The
pattern is unanchored, so the scan tries every start position in order
and, after a match, resumes right after it; the body stored is the
shortest one (first closing fence), and the content is stripped. -/

/-- The record built for each match (the `CodeBlock` dataclass). -/
structure CodeBlock where
  language : List Char
  filepath : Option (List Char)
  content : List Char
deriving DecidableEq, Repr

/-- Python's `\w`: word characters (letters, digits, underscore). -/
def isWordChar (c : Char) : Bool :=
  c.isAlphanum || c = '_'

/-- Does a three-backtick run start at index `i` of `s`? -/
def isTripleAt (s : List Char) (i : Nat) : Bool :=
  (s.drop i).take 3 == [backtickChar, backtickChar, backtickChar]

/-- Index of the first three-backtick occurrence in `s`, if any: the end
of the lazy `(.*?)` body. -/
def findCloseIdx (s : List Char) : Option Nat :=
  (List.range s.length).find? (isTripleAt s)

/-- Split `s` at its first three-backtick occurrence into the body
before it and the remainder after it; `none` when no fence closes. -/
def findClose (s : List Char) : Option (List Char × List Char) :=
  match findCloseIdx s with
  | some i => some (s.take i, s.drop (i + 3))
  | none => none

/-- Attempt the fenced-block pattern at the start of `s`; on success
return the extracted block and the input remaining after the match.
This follows the regex left to right: the opening fence, a non-empty
greedy run of word characters (the language), then either a colon
followed by a non-empty greedy run of non-newline characters (the file
path) and a newline, or directly a newline, then the lazy body up to
the first closing fence.  Greedy sub-matches need no backtracking here:
each is followed by a character its own class excludes. -/
def matchFenceAt (s : List Char) : Option (CodeBlock × List Char) :=
  if isTripleAt s 0 then
    let s1 := s.drop 3
    let lang := s1.takeWhile isWordChar
    let s2 := s1.dropWhile isWordChar
    if lang.isEmpty then none
    else
      match s2 with
      | [] => none
      | c :: s3 =>
        if c = ':' then
          let fp := s3.takeWhile (fun d => !(d == '\n'))
          let s4 := s3.dropWhile (fun d => !(d == '\n'))
          if fp.isEmpty then none
          else
            match s4 with
            | [] => none
            | _ :: s5 =>
              match findClose s5 with
              | some (body, after) =>
                some (⟨lang, some fp, pyStrip body⟩, after)
              | none => none
        else if c = '\n' then
          match findClose s3 with
          | some (body, after) => some (⟨lang, none, pyStrip body⟩, after)
          | none => none
        else none
  else none

/-- The `finditer` scan: try each start position in order; on a match,
emit the block and continue after it, otherwise advance one character.
Each step consumes at least one character of `s`, so fuel equal to the
input length (as supplied by `extract_code_blocks`) never runs out;
`extractLoop_fuel` below proves this irrelevance of surplus fuel. -/
def extractLoop : Nat → List Char → List CodeBlock
  | 0, _ => []
  | fuel + 1, s =>
    match s with
    | [] => []
    | c :: rest =>
      match matchFenceAt (c :: rest) with
      | some (b, after) => b :: extractLoop fuel after
      | none => extractLoop fuel rest

/-- `extract_code_blocks(ai_output)` from the source. -/
def extract_code_blocks (ai_output : List Char) : List CodeBlock :=
  extractLoop ai_output.length ai_output

/-! ### The File Reconciler: `process_ai_output`

Source (lines 126-153): copy the incoming file map, then for each
extracted block: skip path-less blocks; insert new paths with the raw
block content; otherwise segment the block and fold `apply_diff` over
the segments starting from the file's current content, storing the
result back into the map. -/

/-- A Python dict from file path to content, embedded as an insertion-
ordered association list: lookup finds the first matching key, update
rewrites the value in place, insertion appends. -/
abbrev FileMap := List (List Char × List Char)

/-- Python `key in dict`. -/
def dictMem (m : FileMap) (k : List Char) : Bool :=
  m.any (fun e => e.1 == k)

/-- Python `dict[key]` read (as used in the source, always guarded by a
membership test). -/
def dictGet? (m : FileMap) (k : List Char) : Option (List Char) :=
  (m.find? (fun e => e.1 == k)).map (fun e => e.2)

/-- Python `dict[key] = value`: overwrite in place when present
(preserving entry order), append when absent. -/
def dictSet (m : FileMap) (k v : List Char) : FileMap :=
  if dictMem m k then m.map (fun e => if e.1 == k then (k, v) else e)
  else m ++ [(k, v)]

/-- The body of the `for block in code_blocks:` loop of
`process_ai_output`, acting on `modified_files`. -/
def processBlock (modified_files : FileMap) (b : CodeBlock) : FileMap :=
  match b.filepath with
  | none => modified_files
  | some fp =>
    if dictMem modified_files fp then
      let original_content := (dictGet? modified_files fp).getD []
      let changes := parse_code_block b.content
      let current_content :=
        changes.foldl
          (fun cur ch =>
            if ch.action == toL "replace" then apply_diff cur ch.content
            else cur)
          original_content
      dictSet modified_files fp current_content
    else dictSet modified_files fp b.content

/-- `process_ai_output(ai_output, files)` from the source: the returned
`modified_files`, starting from the copy of `files`. -/
def process_ai_output (ai_output : List Char) (files : FileMap) : FileMap :=
  (extract_code_blocks ai_output).foldl processBlock files

/-- State-passing embedding of a call `process_ai_output(ai_output,
files)` that tracks both dict objects live during the call: the first
component is the caller's `files`, the second is the local
`modified_files`, initialised by `files.copy()`; every loop iteration
of the source reads and writes only `modified_files`, which is what the
step function records. -/
def process_ai_output_call (ai_output : List Char) (files : FileMap) :
    FileMap × FileMap :=
  (extract_code_blocks ai_output).foldl
    (fun s b => (s.1, processBlock s.2 b)) (files, files)

/-! ### Helper lemmas about the anchor search -/

theorem windowHit_iff (ol nl : List (List Char)) (i : Nat) :
    windowHit ol nl i = true ↔ WindowHitP ol nl i := by
  simp [windowHit, WindowHitP, List.any_eq_true, List.contains, List.elem_eq_mem]

theorem windowHit_eq_false_iff (ol nl : List (List Char)) (i : Nat) :
    windowHit ol nl i = false ↔ ¬ WindowHitP ol nl i := by
  rw [← windowHit_iff]
  cases windowHit ol nl i <;> simp

theorem findAnchorFrom_eq_some (ol nl : List (List Char)) (r : Nat)
    (hr : windowHit ol nl r = true) :
    ∀ fuel i, i ≤ r → r < i + fuel →
      (∀ k, i ≤ k → k < r → windowHit ol nl k = false) →
      findAnchorFrom ol nl i fuel = some r := by
  intro fuel
  induction fuel with
  | zero => intro i hir hlt _; omega
  | succ fuel ih =>
    intro i hir hlt hmin
    rw [findAnchorFrom]
    by_cases hi : i = r
    · subst hi; simp [hr]
    · have hik : windowHit ol nl i = false := hmin i (Nat.le_refl i) (by omega)
      simp only [hik]
      simp only [Bool.false_eq_true, if_false]
      exact ih (i + 1) (by omega) (by omega) (fun k hk1 hk2 => hmin k (by omega) hk2)

theorem findAnchorFrom_eq_none (ol nl : List (List Char)) :
    ∀ fuel i, (∀ k, i ≤ k → k < i + fuel → windowHit ol nl k = false) →
      findAnchorFrom ol nl i fuel = none := by
  intro fuel
  induction fuel with
  | zero => intro i _; rfl
  | succ fuel ih =>
    intro i hmin
    rw [findAnchorFrom]
    have hik : windowHit ol nl i = false := hmin i (Nat.le_refl i) (by omega)
    simp only [hik, Bool.false_eq_true, if_false]
    exact ih (i + 1) (fun k hk1 hk2 => hmin k (by omega) (by omega))

theorem windowHit_nil (ol : List (List Char)) (i : Nat) :
    windowHit ol [] i = false := rfl

theorem findAnchorFrom_nil (ol : List (List Char)) :
    ∀ fuel i, findAnchorFrom ol [] i fuel = none := by
  intro fuel
  induction fuel with
  | zero => intro i; rfl
  | succ fuel ih =>
    intro i
    rw [findAnchorFrom, windowHit_nil]
    simpa using ih (i + 1)

/-! ### Claims about the Positional Merger -/

/-- C1: First-match merge: `apply_diff` scans candidate start indices
`i` over the original lines from 0 upward and splices at the first `i`
such that some line of the segment occurs verbatim in the window of
original lines `[i, i + len(segment lines))`: that window is replaced by
all of the segment's lines and scanning stops immediately; in
particular `apply_diff "A\nB\nA\nC" "A\nX" = "A\nX\nA\nC"`. -/
theorem apply_diff_first_match_anchor (oc st : List Char) (i : Nat)
    (hlt : i < (splitlinesList oc).length)
    (hhit : WindowHitP (splitlinesList oc) (splitlinesList st) i)
    (hmin : ∀ k, k < i → ¬ WindowHitP (splitlinesList oc) (splitlinesList st) k) :
    apply_diff oc st
      = joinLines ((splitlinesList oc).take i ++ splitlinesList st
          ++ (splitlinesList oc).drop (i + (splitlinesList st).length))
    ∧ apply_diff (toL "A\nB\nA\nC") (toL "A\nX") = toL "A\nX\nA\nC" := by
  constructor
  · have hfind :
        findAnchorFrom (splitlinesList oc) (splitlinesList st) 0
          (splitlinesList oc).length = some i :=
      findAnchorFrom_eq_some _ _ i ((windowHit_iff _ _ _).mpr hhit)
        (splitlinesList oc).length 0 (Nat.zero_le i) (by omega)
        (fun k _ hk => (windowHit_eq_false_iff _ _ _).mpr (hmin k hk))
    unfold apply_diff
    rw [hfind]
    rfl
  · decide

theorem apply_diff_first_match_anchor_witness :
    (0 < (splitlinesList (toL "A\nB\nA\nC")).length
      ∧ WindowHitP (splitlinesList (toL "A\nB\nA\nC")) (splitlinesList (toL "A\nX")) 0)
    ∧ apply_diff (toL "A\nB\nA\nC") (toL "A\nX")
        = joinLines ((splitlinesList (toL "A\nB\nA\nC")).take 0
            ++ splitlinesList (toL "A\nX")
            ++ (splitlinesList (toL "A\nB\nA\nC")).drop
                (0 + (splitlinesList (toL "A\nX")).length)) :=
  ⟨⟨by decide, by decide⟩,
    (apply_diff_first_match_anchor (toL "A\nB\nA\nC") (toL "A\nX") 0 (by decide)
      (by decide) (fun k hk => absurd hk (Nat.not_lt_zero k))).1⟩

/-- C4 (amended): when no candidate index yields a window hit,
`apply_diff` raises no error and appends nothing, returning the
newline-join of the original's lines — which equals the original
exactly when the original is already so normalized (no trailing line
boundary, `\n` endings). -/
theorem apply_diff_no_match_join (oc st : List Char)
    (h : ∀ i, i < (splitlinesList oc).length →
        ¬ WindowHitP (splitlinesList oc) (splitlinesList st) i) :
    apply_diff oc st = joinLines (splitlinesList oc)
    ∧ (joinLines (splitlinesList oc) = oc → apply_diff oc st = oc) := by
  have hfind :
      findAnchorFrom (splitlinesList oc) (splitlinesList st) 0
        (splitlinesList oc).length = none :=
    findAnchorFrom_eq_none _ _ (splitlinesList oc).length 0
      (fun k _ hk => (windowHit_eq_false_iff _ _ _).mpr (h k (by omega)))
  have hmain : apply_diff oc st = joinLines (splitlinesList oc) := by
    unfold apply_diff
    rw [hfind]
  exact ⟨hmain, fun hn => hmain.trans hn⟩

theorem apply_diff_no_match_join_witness :
    (∀ i, i < (splitlinesList (toL "p\nq")).length →
        ¬ WindowHitP (splitlinesList (toL "p\nq")) (splitlinesList (toL "z")) i)
    ∧ apply_diff (toL "p\nq") (toL "z") = joinLines (splitlinesList (toL "p\nq"))
    ∧ apply_diff (toL "p\nq") (toL "z") = toL "p\nq" :=
  ⟨by decide,
    (apply_diff_no_match_join (toL "p\nq") (toL "z") (by decide)).1,
    (apply_diff_no_match_join (toL "p\nq") (toL "z") (by decide)).2 (by decide)⟩

/-- C4 counterexample: with no window hit anywhere, `apply_diff "a\n"
"x"` returns `"a"`, which is not the original content `"a\n"` — the
result is not "completely unchanged". -/
theorem apply_diff_no_match_not_unchanged_cx :
    (∀ i, i < (splitlinesList (toL "a\n")).length →
        ¬ WindowHitP (splitlinesList (toL "a\n")) (splitlinesList (toL "x")) i)
    ∧ apply_diff (toL "a\n") (toL "x") = toL "a"
    ∧ apply_diff (toL "a\n") (toL "x") ≠ toL "a\n" := by decide

/-- C3 counterexample: the lines of segment `"A\nB"` occur contiguously
and in place inside `"X\nA\nB"`, yet `apply_diff` anchors at the
earlier index 0 (line `"A"` falls inside the window starting there) and
returns `"A\nB\nB"`, not the original. -/
theorem apply_diff_not_idempotent_cx :
    splitlinesList (toL "X\nA\nB")
      = [toL "X"] ++ splitlinesList (toL "A\nB") ++ []
    ∧ joinLines (splitlinesList (toL "X\nA\nB")) = toL "X\nA\nB"
    ∧ apply_diff (toL "X\nA\nB") (toL "A\nB") = toL "A\nB\nB"
    ∧ apply_diff (toL "X\nA\nB") (toL "A\nB") ≠ toL "X\nA\nB" := by decide

/-- C3 (amended): merging a segment already contained, identical and in
place, returns the original content, provided the original is
newline-normalized (it equals the join of its own lines) and no index
before the segment's position produces a window hit (the first anchor
the scan finds is the segment's own position). -/
theorem apply_diff_idempotent_of_first_anchor (oc st : List Char)
    (A B : List (List Char))
    (hnorm : joinLines (splitlinesList oc) = oc)
    (hrun : splitlinesList oc = A ++ splitlinesList st ++ B)
    (hmin : ∀ k, k < A.length →
        ¬ WindowHitP (splitlinesList oc) (splitlinesList st) k) :
    apply_diff oc st = oc := by
  cases hst : splitlinesList st with
  | nil =>
    unfold apply_diff
    rw [hst, findAnchorFrom_nil]
    exact hnorm
  | cons l nl =>
    have htake : (splitlinesList oc).take A.length = A := by
      rw [hrun, List.append_assoc]; exact List.take_left A _
    have hdropA : (splitlinesList oc).drop A.length = splitlinesList st ++ B := by
      rw [hrun, List.append_assoc]; exact List.drop_left A _
    have hwin :
        ((splitlinesList oc).drop A.length).take (splitlinesList st).length
          = splitlinesList st := by
      rw [hdropA]; exact List.take_left _ B
    have hdrop :
        (splitlinesList oc).drop (A.length + (splitlinesList st).length) = B := by
      rw [hrun, ← List.length_append]
      exact List.drop_left _ B
    have hhit : windowHit (splitlinesList oc) (splitlinesList st) A.length = true := by
      rw [windowHit_iff]
      refine ⟨l, ?_, ?_⟩
      · rw [hst]; exact List.mem_cons_self l nl
      · rw [hwin, hst]; exact List.mem_cons_self l nl
    have hlen : A.length < (splitlinesList oc).length := by
      rw [hrun]
      simp only [List.length_append, hst, List.length_cons]
      omega
    have hfind :
        findAnchorFrom (splitlinesList oc) (splitlinesList st) 0
          (splitlinesList oc).length = some A.length :=
      findAnchorFrom_eq_some _ _ A.length hhit (splitlinesList oc).length 0
        (Nat.zero_le _) (by omega)
        (fun k _ hk => (windowHit_eq_false_iff _ _ _).mpr (hmin k hk))
    unfold apply_diff
    rw [hfind]
    show joinLines (spliceAt (splitlinesList oc) (splitlinesList st) A.length) = oc
    unfold spliceAt
    rw [htake, hdrop, ← hrun, hnorm]

theorem apply_diff_idempotent_of_first_anchor_witness :
    (joinLines (splitlinesList (toL "A\nB")) = toL "A\nB"
      ∧ splitlinesList (toL "A\nB") = [] ++ splitlinesList (toL "A") ++ [toL "B"])
    ∧ apply_diff (toL "A\nB") (toL "A") = toL "A\nB" :=
  ⟨⟨by decide, by decide⟩,
    apply_diff_idempotent_of_first_anchor (toL "A\nB") (toL "A") [] [toL "B"]
      (by decide) (by decide) (fun k hk => absurd hk (Nat.not_lt_zero k))⟩

/-- C10: `apply_diff` always returns the newline-join of a line list —
either the spliced lines or the original's lines — so the result is
not byte-for-byte the original on the no-match path when the original
has a trailing newline or CRLF endings: `apply_diff "a\n" "x" = "a"`,
`apply_diff "a\r\nb" "x" = "a\nb"`, and an empty segment (which matches
nowhere) returns the join of the original's lines. -/
theorem apply_diff_normalizes :
    (∀ oc st : List Char,
        apply_diff oc st = joinLines (splitlinesList oc)
        ∨ ∃ i, apply_diff oc st
            = joinLines (spliceAt (splitlinesList oc) (splitlinesList st) i))
    ∧ apply_diff (toL "a\n") (toL "x") = toL "a"
    ∧ apply_diff (toL "a\r\nb") (toL "x") = toL "a\nb"
    ∧ (∀ c : List Char, apply_diff c (toL "") = joinLines (splitlinesList c)) := by
  refine ⟨fun oc st => ?_, by decide, by decide, fun c => ?_⟩
  · unfold apply_diff
    cases hf : findAnchorFrom (splitlinesList oc) (splitlinesList st) 0
        (splitlinesList oc).length with
    | none => exact Or.inl rfl
    | some i => exact Or.inr ⟨i, rfl⟩
  · show apply_diff c [] = joinLines (splitlinesList c)
    unfold apply_diff
    rw [show splitlinesList [] = [] from rfl, findAnchorFrom_nil]

/-! ### Claims about the Marker Segmenter -/

theorem contains_eq_false_of_not_mem {a : List Char} {l : List (List Char)}
    (h : a ∉ l) : l.contains a = false := by
  simp [List.contains, List.elem_eq_mem, h]

theorem parseAux_no_marker (lines : List (List Char))
    (h : ∀ l ∈ lines, context_markers.contains (pyStrip l) = false) :
    ∀ acc b, parseAux lines acc b
      = if (acc ++ lines).isEmpty then []
        else [⟨toL "replace", joinLines (acc ++ lines), 3⟩] := by
  induction lines with
  | nil => intro acc b; simp [parseAux]
  | cons l rest ih =>
    intro acc b
    have hl : context_markers.contains (pyStrip l) = false :=
      h l (List.mem_cons_self l rest)
    rw [parseAux, hl]
    simp only [Bool.false_eq_true, if_false]
    rw [ih (fun x hx => h x (List.mem_cons_of_mem l hx)) (acc ++ [l]) true,
      List.append_assoc, List.singleton_append]

/-- C7 counterexample: the body `"a\r\nb"` has no marker line and is
already whitespace-stripped, yet the single segment returned carries
text `"a\nb"` (the newline-join of the body's lines), not the trimmed
body `"a\r\nb"`. -/
theorem parse_code_block_not_trimmed_cx :
    (∀ l ∈ splitlinesList (toL "a\r\nb"), pyStrip l ∉ context_markers)
    ∧ pyStrip (toL "a\r\nb") = toL "a\r\nb"
    ∧ parse_code_block (toL "a\r\nb") = [⟨toL "replace", toL "a\nb", 3⟩]
    ∧ toL "a\nb" ≠ toL "a\r\nb" := by decide

/-- C7 (amended): for every fragment body with at least one line, none
of whose lines after trimming surrounding whitespace equals one of the
seven elision markers, `parse_code_block` returns exactly one change
whose text is the newline-join of the body's lines (equal to the body
itself whenever the body is stripped and uses `\n` endings). -/
theorem parse_code_block_no_markers (body : List Char)
    (h1 : splitlinesList body ≠ [])
    (h2 : ∀ l ∈ splitlinesList body, pyStrip l ∉ context_markers) :
    parse_code_block body
      = [⟨toL "replace", joinLines (splitlinesList body), 3⟩] := by
  unfold parse_code_block
  rw [parseAux_no_marker _ (fun l hl => contains_eq_false_of_not_mem (h2 l hl)) [] false]
  rw [List.nil_append, if_neg (by simp [List.isEmpty_iff, h1])]

theorem parse_code_block_no_markers_witness :
    (splitlinesList (toL "a\nb") ≠ []
      ∧ ∀ l ∈ splitlinesList (toL "a\nb"), pyStrip l ∉ context_markers)
    ∧ parse_code_block (toL "a\nb")
        = [⟨toL "replace", joinLines (splitlinesList (toL "a\nb")), 3⟩] :=
  ⟨⟨by decide, by decide⟩,
    parse_code_block_no_markers (toL "a\nb") (by decide) (by decide)⟩

/-! ### Claims about the Block Extractor -/

theorem isTripleAt_cons_zero_eq_false (c : Char) (rest : List Char)
    (h : c ≠ backtickChar) : isTripleAt (c :: rest) 0 = false := by
  have hcb : (c == backtickChar) = false := beq_eq_false_iff_ne.mpr h
  show ((c :: rest).take 3 == [backtickChar, backtickChar, backtickChar]) = false
  have ht : (c :: rest).take 3 = c :: rest.take 2 := rfl
  rw [ht]
  show (c == backtickChar && (rest.take 2 == [backtickChar, backtickChar])) = false
  rw [hcb, Bool.false_and]

theorem matchFenceAt_cons_ne (c : Char) (rest : List Char)
    (h : c ≠ backtickChar) : matchFenceAt (c :: rest) = none := by
  unfold matchFenceAt
  rw [isTripleAt_cons_zero_eq_false c rest h]
  rfl

theorem extractLoop_cons_ne (fuel : Nat) (c : Char) (rest : List Char)
    (h : c ≠ backtickChar) :
    extractLoop (fuel + 1) (c :: rest) = extractLoop fuel rest := by
  rw [extractLoop, matchFenceAt_cons_ne c rest h]

/-- Prefixing any backtick-free text (in particular, text placing a
fence mid-line) does not affect recognition: the scan fails at every
position inside the prefix and continues character by character. -/
theorem extract_code_blocks_prepend (p s : List Char)
    (hp : backtickChar ∉ p) :
    extract_code_blocks (p ++ s) = extract_code_blocks s := by
  induction p with
  | nil => rfl
  | cons c p ih =>
    have hc : c ≠ backtickChar := fun hcc => hp (hcc ▸ List.mem_cons_self c p)
    have hp2 : backtickChar ∉ p := fun hm => hp (List.mem_cons_of_mem c hm)
    show extractLoop ((c :: (p ++ s)).length) (c :: (p ++ s)) = extract_code_blocks s
    rw [List.length_cons, extractLoop_cons_ne _ c _ hc]
    exact ih hp2

/-- C8 counterexample: in `"x ```python\na ```"` every three-backtick
occurrence is mid-line (preceded by a space, never at the start of the
input or after a newline), yet `extract_code_blocks` yields a
fragment. -/
theorem extract_midline_fence_cx :
    (∀ i, i < (toL "x ```python\na ```").length →
        isTripleAt (toL "x ```python\na ```") i = true →
        0 < i ∧ (toL "x ```python\na ```")[i - 1]? ≠ some '\n')
    ∧ extract_code_blocks (toL "x ```python\na ```") ≠ [] := by decide

/-- C8 (amended): fence recognition is not line-anchored: the opening
three backticks are recognized at any position, so prefixing
backtick-free text changes nothing, and a mid-line fence yields its
fragment: `extract_code_blocks "x ```python\na ```"` is the single
block with language `python`, no path, and content `"a"`. -/
theorem extract_not_line_anchored (p s : List Char)
    (hp : backtickChar ∉ p) :
    extract_code_blocks (p ++ s) = extract_code_blocks s
    ∧ extract_code_blocks (toL "x ```python\na ```")
        = [⟨toL "python", none, toL "a"⟩] :=
  ⟨extract_code_blocks_prepend p s hp, by decide⟩

theorem extract_not_line_anchored_witness :
    backtickChar ∉ toL "x "
    ∧ extract_code_blocks (toL "x " ++ toL "```python\na ```")
        = extract_code_blocks (toL "```python\na ```") :=
  ⟨by decide,
    (extract_not_line_anchored (toL "x ") (toL "```python\na ```") (by decide)).1⟩

/-! ### Dictionary lemmas for the File Reconciler -/

theorem dictSet_key_eq (k v : List Char) (e : List Char × List Char) :
    (if e.1 == k then (k, v) else e).1 = e.1 := by
  by_cases h : e.1 = k
  · simp [h]
  · simp [h]

theorem dictMem_dictSet_of_mem (m : FileMap) (k v k2 : List Char)
    (h : dictMem m k2 = true) : dictMem (dictSet m k v) k2 = true := by
  unfold dictSet
  split
  · unfold dictMem at *
    rw [List.any_map]
    obtain ⟨e, hem, hek⟩ := List.any_eq_true.mp h
    exact List.any_eq_true.mpr ⟨e, hem, by
      show ((if e.1 == k then (k, v) else e).1 == k2) = true
      rw [dictSet_key_eq]
      exact hek⟩
  · unfold dictMem at *
    obtain ⟨e, hem, hek⟩ := List.any_eq_true.mp h
    exact List.any_eq_true.mpr ⟨e, List.mem_append_left _ hem, hek⟩

theorem dictGet?_map_set_ne (m : FileMap) (k v k2 : List Char) (h : k2 ≠ k) :
    dictGet? (m.map (fun e => if e.1 == k then (k, v) else e)) k2
      = dictGet? m k2 := by
  induction m with
  | nil => rfl
  | cons e m ih =>
    show dictGet? ((if e.1 == k then (k, v) else e) :: m.map _) k2 = _
    by_cases he : e.1 = k
    · rw [if_pos (by simp [he])]
      unfold dictGet?
      rw [List.find?_cons_of_neg _ (by simp [Ne.symm h]),
        List.find?_cons_of_neg _ (by simp [he, Ne.symm h])]
      exact ih
    · rw [if_neg (by simp [he])]
      by_cases he2 : e.1 = k2
      · unfold dictGet?
        rw [List.find?_cons_of_pos _ (by simp [he2]),
          List.find?_cons_of_pos _ (by simp [he2])]
      · unfold dictGet?
        rw [List.find?_cons_of_neg _ (by simp [he2]),
          List.find?_cons_of_neg _ (by simp [he2])]
        exact ih

theorem dictGet?_append_ne (m : FileMap) (k v k2 : List Char) (h : k2 ≠ k) :
    dictGet? (m ++ [(k, v)]) k2 = dictGet? m k2 := by
  induction m with
  | nil =>
    unfold dictGet?
    rw [List.nil_append, List.find?_cons_of_neg _ (by simp [Ne.symm h])]
  | cons e m ih =>
    rw [List.cons_append]
    by_cases he : e.1 = k2
    · unfold dictGet?
      rw [List.find?_cons_of_pos _ (by simp [he]),
        List.find?_cons_of_pos _ (by simp [he])]
    · unfold dictGet?
      rw [List.find?_cons_of_neg _ (by simp [he]),
        List.find?_cons_of_neg _ (by simp [he])]
      exact ih

theorem dictGet?_dictSet_ne (m : FileMap) (k v k2 : List Char) (h : k2 ≠ k) :
    dictGet? (dictSet m k v) k2 = dictGet? m k2 := by
  unfold dictSet
  split
  · exact dictGet?_map_set_ne m k v k2 h
  · exact dictGet?_append_ne m k v k2 h

theorem find?_map_set_self (m : FileMap) (k v : List Char)
    (hm : dictMem m k = true) :
    dictGet? (m.map (fun e => if e.1 == k then (k, v) else e)) k = some v := by
  induction m with
  | nil => simp [dictMem] at hm
  | cons e m ih =>
    show dictGet? ((if e.1 == k then (k, v) else e) :: m.map _) k = some v
    by_cases he : e.1 = k
    · rw [if_pos (by simp [he])]
      unfold dictGet?
      rw [List.find?_cons_of_pos _ (by simp)]
      rfl
    · rw [if_neg (by simp [he])]
      unfold dictGet?
      rw [List.find?_cons_of_neg _ (by simp [he])]
      apply ih
      rw [dictMem, List.any_cons] at hm
      rcases Bool.or_eq_true_iff.mp hm with hc | hc
      · exact absurd (by simpa using hc) he
      · exact hc

theorem find?_append_self (m : FileMap) (k v : List Char)
    (hm : dictMem m k = false) :
    dictGet? (m ++ [(k, v)]) k = some v := by
  induction m with
  | nil =>
    unfold dictGet?
    rw [List.nil_append, List.find?_cons_of_pos _ (by simp)]
    rfl
  | cons e m ih =>
    rw [dictMem, List.any_cons, Bool.or_eq_false_iff] at hm
    obtain ⟨hm1, hm2⟩ := hm
    rw [List.cons_append]
    unfold dictGet?
    rw [List.find?_cons_of_neg _ (by simp [hm1])]
    exact ih hm2

theorem dictGet?_dictSet_self (m : FileMap) (k v : List Char) :
    dictGet? (dictSet m k v) k = some v := by
  unfold dictSet
  split
  · rename_i hm
    exact find?_map_set_self m k v hm
  · rename_i hm
    exact find?_append_self m k v (by simpa using hm)

/-- The content stored for an existing target: the Merger folded over
the block's parsed changes starting from the file's current content. -/
def mergedContent (w : FileMap) (b : CodeBlock) (fp : List Char) : List Char :=
  (parse_code_block b.content).foldl
    (fun cur ch =>
      if ch.action == toL "replace" then apply_diff cur ch.content else cur)
    ((dictGet? w fp).getD [])

theorem processBlock_none (w : FileMap) (b : CodeBlock)
    (hb : b.filepath = none) : processBlock w b = w := by
  unfold processBlock
  rw [hb]

theorem processBlock_some_mem (w : FileMap) (b : CodeBlock) (fp : List Char)
    (hb : b.filepath = some fp) (hm : dictMem w fp = true) :
    processBlock w b = dictSet w fp (mergedContent w b fp) := by
  unfold processBlock mergedContent
  rw [hb]
  show (if dictMem w fp = true then _ else dictSet w fp b.content) = _
  rw [if_pos hm]

theorem processBlock_some_new (w : FileMap) (b : CodeBlock) (fp : List Char)
    (hb : b.filepath = some fp) (hm : dictMem w fp = false) :
    processBlock w b = dictSet w fp b.content := by
  unfold processBlock
  rw [hb]
  show (if dictMem w fp = true then _ else dictSet w fp b.content) = _
  rw [if_neg (by simp [hm])]

theorem dictMem_processBlock (w : FileMap) (b : CodeBlock) (k : List Char)
    (h : dictMem w k = true) : dictMem (processBlock w b) k = true := by
  cases hb : b.filepath with
  | none => rw [processBlock_none w b hb]; exact h
  | some fp =>
    by_cases hm : dictMem w fp = true
    · rw [processBlock_some_mem w b fp hb hm]
      exact dictMem_dictSet_of_mem w fp _ k h
    · rw [processBlock_some_new w b fp hb (by simpa using hm)]
      exact dictMem_dictSet_of_mem w fp _ k h

theorem dictGet?_processBlock_ne (w : FileMap) (b : CodeBlock) (k : List Char)
    (h : b.filepath ≠ some k) :
    dictGet? (processBlock w b) k = dictGet? w k := by
  cases hb : b.filepath with
  | none => rw [processBlock_none w b hb]
  | some fp =>
    have hk : k ≠ fp := fun he => h (by rw [hb, he])
    by_cases hm : dictMem w fp = true
    · rw [processBlock_some_mem w b fp hb hm]
      exact dictGet?_dictSet_ne w fp _ k hk
    · rw [processBlock_some_new w b fp hb (by simpa using hm)]
      exact dictGet?_dictSet_ne w fp _ k hk

theorem foldl_processBlock_frame (bs : List CodeBlock) :
    ∀ (w : FileMap) (k : List Char),
      (dictMem w k = true → dictMem (bs.foldl processBlock w) k = true)
      ∧ ((∀ b ∈ bs, b.filepath ≠ some k) →
          dictGet? (bs.foldl processBlock w) k = dictGet? w k) := by
  induction bs with
  | nil => exact fun w k => ⟨fun h => h, fun _ => rfl⟩
  | cons b bs ih =>
    intro w k
    constructor
    · intro h
      exact (ih (processBlock w b) k).1 (dictMem_processBlock w b k h)
    · intro h
      rw [List.foldl_cons,
        (ih (processBlock w b) k).2 (fun x hx => h x (List.mem_cons_of_mem b hx))]
      exact dictGet?_processBlock_ne w b k (h b (List.mem_cons_self b bs))

/-! ### Claims about the File Reconciler -/

/-- C2 evaluation at the failing input: processing the single fenced
block targeting `f.py` with replacement line `print('Hello, World!')`
against a map holding `f.py -> print('Hello')` leaves the map
unchanged, because no line of the replacement occurs verbatim among the
original's lines, so the merge silently no-ops. -/
theorem process_ai_output_hello_unchanged :
    process_ai_output (toL "```python:f.py\nprint(\x27Hello, World!\x27)\n```")
        [(toL "f.py", toL "print(\x27Hello\x27)")]
      = [(toL "f.py", toL "print(\x27Hello\x27)")]
    ∧ toL "print(\x27Hello\x27)" ≠ toL "print(\x27Hello, World!\x27)" := by decide

theorem foldl_call_pair (bs : List CodeBlock) :
    ∀ s : FileMap × FileMap,
      bs.foldl (fun s b => (s.1, processBlock s.2 b)) s
        = (s.1, bs.foldl processBlock s.2) := by
  induction bs with
  | nil => intro s; rfl
  | cons b bs ih =>
    intro s
    rw [List.foldl_cons, ih]
    rfl

/-- C5: the call does not mutate the input mapping — in the
state-passing embedding tracking both dict objects, the caller's
`files` component is unchanged by the call — and the returned mapping
is the separately built `modified_files`, a copy-based pure function of
the inputs. -/
theorem process_ai_output_pure (raw : List Char) (files : FileMap) :
    (process_ai_output_call raw files).1 = files
    ∧ (process_ai_output_call raw files).2 = process_ai_output raw files := by
  unfold process_ai_output_call process_ai_output
  rw [foldl_call_pair]
  exact ⟨rfl, rfl⟩

/-- C6: when a block's target path is absent from the current file map,
the reconciler's loop body inserts that path mapped to the block's raw
(stripped) content, exactly a dict insertion — bypassing the Segmenter
and Merger — and the inserted value is retrievable verbatim; in
particular reconciling a `new.py` fragment against an empty map yields
the map with `new.py` bound to the fragment body. -/
theorem process_new_file_path (files : FileMap) (b : CodeBlock) (fp : List Char)
    (h1 : b.filepath = some fp) (h2 : dictMem files fp = false) :
    processBlock files b = dictSet files fp b.content
    ∧ dictGet? (processBlock files b) fp = some b.content
    ∧ process_ai_output (toL "```python:new.py\nx = 1\n```") []
        = [(toL "new.py", toL "x = 1")] := by
  have hmain : processBlock files b = dictSet files fp b.content :=
    processBlock_some_new files b fp h1 h2
  refine ⟨hmain, ?_, by decide⟩
  rw [hmain]
  exact dictGet?_dictSet_self files fp b.content

theorem process_new_file_path_witness :
    ((⟨toL "python", some (toL "new.py"), toL "x = 1"⟩ : CodeBlock).filepath
        = some (toL "new.py")
      ∧ dictMem ([] : FileMap) (toL "new.py") = false)
    ∧ processBlock [] ⟨toL "python", some (toL "new.py"), toL "x = 1"⟩
        = dictSet [] (toL "new.py") (toL "x = 1")
    ∧ dictGet? (processBlock [] ⟨toL "python", some (toL "new.py"), toL "x = 1"⟩)
        (toL "new.py") = some (toL "x = 1") :=
  ⟨⟨rfl, rfl⟩,
    (process_new_file_path [] _ (toL "new.py") rfl rfl).1,
    (process_new_file_path [] _ (toL "new.py") rfl rfl).2.1⟩

/-- C9: no entry is ever removed by `process_ai_output` — every key of
the input map is a key of the result — and any entry whose path is not
targeted by some extracted fragment keeps its input value unchanged. -/
theorem process_ai_output_frame (raw : List Char) (files : FileMap)
    (k : List Char) :
    (dictMem files k = true → dictMem (process_ai_output raw files) k = true)
    ∧ ((∀ b ∈ extract_code_blocks raw, b.filepath ≠ some k) →
        dictGet? (process_ai_output raw files) k = dictGet? files k) :=
  foldl_processBlock_frame (extract_code_blocks raw) files k

theorem process_ai_output_frame_witness :
    (dictMem [(toL "g.py", toL "1")] (toL "g.py") = true
      ∧ (∀ b ∈ extract_code_blocks (toL "```python:f.py\nhi\n```"),
          b.filepath ≠ some (toL "g.py")))
    ∧ dictMem (process_ai_output (toL "```python:f.py\nhi\n```")
        [(toL "g.py", toL "1")]) (toL "g.py") = true
    ∧ dictGet? (process_ai_output (toL "```python:f.py\nhi\n```")
        [(toL "g.py", toL "1")]) (toL "g.py")
        = dictGet? [(toL "g.py", toL "1")] (toL "g.py") :=
  ⟨⟨by decide, by decide⟩,
    (process_ai_output_frame (toL "```python:f.py\nhi\n```")
      [(toL "g.py", toL "1")] (toL "g.py")).1 (by decide),
    (process_ai_output_frame (toL "```python:f.py\nhi\n```")
      [(toL "g.py", toL "1")] (toL "g.py")).2 (by decide)⟩

/-! ### Adequacy of the extractor's fuel

`extract_code_blocks` runs `extractLoop` with fuel equal to the input
length.  The lemmas below show that a successful `matchFenceAt` strictly
consumes input, hence every fuel at least the input length computes the
same result: the chosen fuel is always sufficient. -/

theorem isTripleAt_le_length (s : List Char) (i : Nat)
    (h : isTripleAt s i = true) : i + 3 ≤ s.length := by
  have h2 : (s.drop i).take 3 = [backtickChar, backtickChar, backtickChar] := by
    simpa [isTripleAt] using h
  have h3 : ((s.drop i).take 3).length = 3 := by rw [h2]; rfl
  rw [List.length_take, List.length_drop] at h3
  omega

theorem findClose_length (s body after : List Char)
    (h : findClose s = some (body, after)) : after.length + 3 ≤ s.length := by
  unfold findClose at h
  cases hidx : findCloseIdx s with
  | none => rw [hidx] at h; exact absurd h (by simp)
  | some i =>
    rw [hidx] at h
    simp only [Option.some.injEq, Prod.mk.injEq] at h
    obtain ⟨hbody, hafter⟩ := h
    have hidx2 : (List.range s.length).find? (isTripleAt s) = some i := hidx
    have hi : isTripleAt s i = true := List.find?_some hidx2
    have hle := isTripleAt_le_length s i hi
    rw [← hafter, List.length_drop]
    omega

theorem matchFenceAt_length (s : List Char) (b : CodeBlock)
    (after : List Char) (h : matchFenceAt s = some (b, after)) :
    after.length < s.length := by
  unfold matchFenceAt at h
  by_cases h0 : isTripleAt s 0 = true
  case neg => rw [if_neg h0] at h; exact absurd h (by simp)
  rw [if_pos h0] at h
  simp only [] at h
  have hs3 : 3 ≤ s.length := by simpa using isTripleAt_le_length s 0 h0
  by_cases hl : ((s.drop 3).takeWhile isWordChar).isEmpty = true
  case pos => rw [if_pos hl] at h; exact absurd h (by simp)
  rw [if_neg hl] at h
  have hdw : ((s.drop 3).dropWhile isWordChar).length ≤ s.length - 3 := by
    have hsub := (List.dropWhile_sublist (l := s.drop 3) isWordChar).length_le
    rwa [List.length_drop] at hsub
  cases hs2 : (s.drop 3).dropWhile isWordChar with
  | nil => rw [hs2] at h; exact absurd h (by simp)
  | cons c s3 =>
    rw [hs2] at h
    simp only [] at h
    rw [hs2, List.length_cons] at hdw
    by_cases hc : c = ':'
    · rw [if_pos hc] at h
      by_cases hfp : (s3.takeWhile (fun d => !(d == '\n'))).isEmpty = true
      case pos => rw [if_pos hfp] at h; exact absurd h (by simp)
      rw [if_neg hfp] at h
      have hdw2 : (s3.dropWhile (fun d => !(d == '\n'))).length ≤ s3.length :=
        (List.dropWhile_sublist _).length_le
      cases hs4 : s3.dropWhile (fun d => !(d == '\n')) with
      | nil => rw [hs4] at h; exact absurd h (by simp)
      | cons d s5 =>
        rw [hs4] at h
        simp only [] at h
        rw [hs4, List.length_cons] at hdw2
        cases hfc : findClose s5 with
        | none => rw [hfc] at h; exact absurd h (by simp)
        | some pr =>
          obtain ⟨body, aft⟩ := pr
          rw [hfc] at h
          simp only [Option.some.injEq, Prod.mk.injEq] at h
          obtain ⟨hb2, hafter⟩ := h
          have hfl := findClose_length s5 body aft hfc
          rw [← hafter]
          omega
    · rw [if_neg hc] at h
      by_cases hn : c = '\n'
      case neg => rw [if_neg hn] at h; exact absurd h (by simp)
      rw [if_pos hn] at h
      cases hfc : findClose s3 with
      | none => rw [hfc] at h; exact absurd h (by simp)
      | some pr =>
        obtain ⟨body, aft⟩ := pr
        rw [hfc] at h
        simp only [Option.some.injEq, Prod.mk.injEq] at h
        obtain ⟨hb2, hafter⟩ := h
        have hfl := findClose_length s3 body aft hfc
        rw [← hafter]
        omega

theorem extractLoop_fuel_eq (n : Nat) :
    ∀ f1 f2 s, s.length = n → n ≤ f1 → n ≤ f2 →
      extractLoop f1 s = extractLoop f2 s := by
  induction n using Nat.strong_induction_on with
  | _ n ih =>
    intro f1 f2 s hn h1 h2
    cases s with
    | nil =>
      cases f1 <;> cases f2 <;> rfl
    | cons c rest =>
      subst hn
      obtain ⟨g1, rfl⟩ : ∃ g1, f1 = g1 + 1 :=
        ⟨f1 - 1, by simp at h1; omega⟩
      obtain ⟨g2, rfl⟩ : ∃ g2, f2 = g2 + 1 :=
        ⟨f2 - 1, by simp at h2; omega⟩
      rw [extractLoop, extractLoop]
      cases hm : matchFenceAt (c :: rest) with
      | none =>
        exact ih rest.length (by simp) g1 g2 rest rfl
          (by simp at h1; omega) (by simp at h2; omega)
      | some pr =>
        obtain ⟨b, after⟩ := pr
        have hlt := matchFenceAt_length _ _ _ hm
        rw [List.length_cons] at hlt
        show b :: extractLoop g1 after = b :: extractLoop g2 after
        rw [ih after.length (by simp; omega) g1 g2 after rfl
          (by simp at h1; omega) (by simp at h2; omega)]

/-- Any fuel at least the input length gives the same extraction as the
fuel `extract_code_blocks` actually uses. -/
theorem extract_code_blocks_fuel (s : List Char) (fuel : Nat)
    (h : s.length ≤ fuel) :
    extractLoop fuel s = extract_code_blocks s :=
  extractLoop_fuel_eq s.length fuel s.length s rfl h (Nat.le_refl _)

example : splitlinesList (toL "A\nB\nA\nC") = [toL "A", toL "B", toL "A", toL "C"] := by decide
example : splitlinesList (toL "a\n") = [toL "a"] := by decide
example : splitlinesList (toL "a\r\nb") = [toL "a", toL "b"] := by decide
example : splitlinesList (toL "") = [] := by decide
example : apply_diff (toL "A\nB\nA\nC") (toL "A\nX") = toL "A\nX\nA\nC" := by decide
example : apply_diff (toL "a\n") (toL "x") = toL "a" := by decide
example : pyStrip (toL "  a b \n") = toL "a b" := by decide
example : parse_code_block (toL "L1\n// ...\nL2\n// ...\nL3") =
    [⟨toL "replace", toL "L1", 3⟩, ⟨toL "replace", toL "L2", 3⟩, ⟨toL "replace", toL "L3", 3⟩] := by decide
example : extract_code_blocks (toL "x ```python\na ```") =
    [⟨toL "python", none, toL "a"⟩] := by decide
example : extract_code_blocks (toL "no fences here") = [] := by decide
example : extract_code_blocks (toL "```python:f.py\nprint(\x27Hello, World!\x27)\n```") =
    [⟨toL "python", some (toL "f.py"), toL "print(\x27Hello, World!\x27)"⟩] := by decide
example : process_ai_output (toL "```python:f.py\nprint(\x27Hello, World!\x27)\n```")
    [(toL "f.py", toL "print(\x27Hello\x27)")] = [(toL "f.py", toL "print(\x27Hello\x27)")] := by decide
example : process_ai_output (toL "```python:new.py\nx = 1\n```") [] =
    [(toL "new.py", toL "x = 1")] := by decide

end DiffHandler
